import Mathlib

/-!
Verification development for the Lexi document-templatization frontend
(`frontend/src/components/ChatInterface.tsx`, `frontend/src/lib/api.ts`,
the `VariableReview` and `FileUpload` components) together with
spec-modelled definitions for the backend Template Resolution Engine
(matcher, question generator, renderer), which lives in the Python
backend and is not part of the sources under verification.

Strings are embedded as Lean `String` / `List Char`.  JavaScript objects
`Record<string, string>` are embedded as association lists with
last-writer-wins lookup (`alookup` / `jsSpread` below mirrors the JS
spread `\x7b...a, ...b\x7d`).  React state handlers are embedded as pure
functions from the component state (plus the responses of the backend
calls they await, passed in as oracle arguments) to the new component
state together with the list of network requests they issue.
-/

/-! ## Kernel-computable string helpers (JS semantics) -/

/-- JS whitespace for `trim` (the ASCII part, which is all the sources
use). -/
def isJsSpace (c : Char) : Bool :=
  c = ' ' || c = '\t' || c = '\n' || c = '\r'

/-- `String.prototype.trim` on a character list. -/
def jsTrimList (l : List Char) : List Char :=
  ((l.dropWhile isJsSpace).reverse.dropWhile isJsSpace).reverse

/-- `String.prototype.trim`. -/
def jsTrim (s : String) : String :=
  String.mk (jsTrimList s.toList)

/-- List-prefix test (defined here so that all string reasoning is
self-contained and kernel-computable). -/
def isPref : List Char → List Char → Bool
  | [], _ => true
  | _ :: _, [] => false
  | a :: p, b :: s => a == b && isPref p s

/-- `String.prototype.startsWith`. -/
def jsStartsWith (s pre : String) : Bool :=
  isPref pre.toList s.toList

/-- `String.prototype.split(",")` on a character list (keeps empty
groups, as in JS). -/
def splitComma : List Char → List (List Char)
  | [] => [[]]
  | c :: rest =>
    match splitComma rest with
    | [] => [[c]]
    | g :: gs => if c = ',' then [] :: g :: gs else (c :: g) :: gs

/-! ## Association lists with JavaScript object semantics -/

/-- Lookup in a JS-style string map (first matching key wins; maps built
by `jsSpread` keep at most one entry per key). -/
def alookup (m : List (String × String)) (k : String) : Option String :=
  (m.find? (fun p => p.1 == k)).map (·.2)

/-- The JS object spread `\x7b ...a, ...b \x7d`: entries of `b` override
entries of `a`; every key of either map keeps a value. -/
def jsSpread (a b : List (String × String)) : List (String × String) :=
  a.filter (fun p => (alookup b p.1).isNone) ++ b

/-! ## Data model (from `frontend/src/lib/api.ts`) -/

/-- `Variable` interface of `api.ts` (a template variable definition). -/
structure Variable where
  key : String
  label : String
  description : Option String := none
  «example» : Option String := none
  required : Bool
  dtype : String
deriving DecidableEq, Repr

/-- `Template` interface of `api.ts`. -/
structure Template where
  id : Nat
  template_id : String
  title : String
  doc_type : Option String := none
  jurisdiction : Option String := none
  file_description : Option String := none
  similarity_tags : List String := []
  body_md : String
  «variables» : List Variable
  created_at : String := ""
deriving DecidableEq, Repr

/-- `TemplateMatchResult` interface of `api.ts`.  The score (a JS number
in [0,1]) is embedded as a rational. -/
structure TemplateMatchResult where
  template_id : String
  title : String
  score : ℚ
  reason : String
  doc_type : Option String := none
  similarity_tags : List String := []
deriving DecidableEq, Repr

/-- `ChatMatchResponse` interface of `api.ts` (response of
`POST /api/chat/match`). -/
structure ChatMatchResponse where
  best_match : Option TemplateMatchResult := none
  alternatives : List TemplateMatchResult := []
  prefilled_variables : List (String × String) := []
  missing_variables : List String := []
deriving DecidableEq, Repr

/-- `VariableQuestion` interface of `api.ts`. -/
structure VariableQuestion where
  key : String
  question : String
  hint : Option String := none
  «example» : Option String := none
  required : Bool
deriving DecidableEq, Repr

/-- `DraftResponse` interface of `api.ts`. -/
structure DraftResponse where
  draft_id : Nat
  draft_md : String
  template_title : String
  created_at : String := ""
deriving DecidableEq, Repr

/-! ## Chat interface state machine (`ChatInterface.tsx`) -/

/-- The `type` discriminator of the `Message` interface. -/
inductive MsgType where
  | user
  | assistant
  | system
deriving DecidableEq, Repr

/-- The `Message` interface of `ChatInterface.tsx` (the `id` field is a
wall-clock timestamp used only as a React list key and is omitted). -/
structure Message where
  type : MsgType
  content : String
  templateMatch : Option TemplateMatchResult := none
  alternatives : Option (List TemplateMatchResult) := none
  questions : Option (List VariableQuestion) := none
  draft : Option DraftResponse := none
deriving DecidableEq, Repr

/-- The React state of the `ChatInterface` component (the controlled
`input` box value is passed to `handleSend` explicitly). -/
structure ChatState where
  messages : List Message := []
  isLoading : Bool := false
  currentTemplate : Option String := none
  currentAnswers : List (String × String) := []
  pendingQuestions : Option (List VariableQuestion) := none
  userQuery : String := ""
deriving DecidableEq, Repr

/-- Network requests issued by the chat handlers (the calls into
`api.ts`: `matchTemplate`, `getTemplate`, `getQuestions`,
`generateDraft`). -/
inductive Request where
  | matchReq (query : String)
  | templateReq (template_id : String)
  | questionsReq (template_id : String) (missing_keys : List String)
  | generateReq (template_id : String) (answers : List (String × String)) (user_query : String)
deriving DecidableEq, Repr

/-- Oracle for the backend responses awaited by the chat handlers:
`ask` stands for the `POST /api/chat/questions` response and `gen` for
the `POST /api/chat/generate` response. -/
structure Backend where
  ask : String → List String → List VariableQuestion
  gen : String → List (String × String) → String → DraftResponse

/-- A plain user chat bubble (`addMessage(\x7b type: user, ... \x7d)`). -/
def userMsg (content : String) : Message :=
  { type := MsgType.user, content := content }

/-- A plain assistant chat bubble. -/
def assistantMsg (content : String) : Message :=
  { type := MsgType.assistant, content := content }

/-- The assistant bubble shown when `matchResult.best_match` is absent:
plain text, no template card, no alternatives, no questions. -/
def noMatchMsg : Message :=
  assistantMsg "No matching template found."

/-- The assistant bubble carrying the matched-template card (and the
alternatives list rendered inside that card). -/
def matchMsg (best : TemplateMatchResult) (alts : List TemplateMatchResult) : Message :=
  { type := MsgType.assistant
    content := "Found a matching template."
    templateMatch := some best
    alternatives := some alts }

/-- The assistant bubble carrying a question form. -/
def questionsMsg (qs : List VariableQuestion) : Message :=
  { type := MsgType.assistant
    content := "I need a few more details to complete your document."
    questions := some qs }

/-- `handleGenerateDraft`: issues `generateDraft(templateId, answers,
userQuery)` and appends the draft bubble built from the response. -/
def genDraft (B : Backend) (tid : String) (answers : List (String × String))
    (uq : String) : Message × Request :=
  ({ type := MsgType.assistant
     content := "Your draft is ready."
     draft := some (B.gen tid answers uq) },
   Request.generateReq tid answers uq)

/-- The `/vars` slash-command reply (content built from the fetched
template and `currentAnswers`; the exact text is immaterial here). -/
def varsMsg : Message :=
  assistantMsg "Current Variables"

/-- `handleSend` of `ChatInterface.tsx`, as a pure transition.

Control flow mirrored from the source: the empty-input / `isLoading`
guard; `setUserQuery`; the `/vars` slash command (which fetches the
current template and returns before matching); the no-`best_match`
early return; storing `prefilled_variables` and the matched template
id; then either fetching questions for the `missing_variables` (and
showing them when non-empty) or generating a draft immediately.

React state reads inside the handler observe the state as of the start
of the event (`setX` only schedules an update), so the draft request
uses the previous `userQuery` value, mirroring the source closure.

`resp` is the awaited `matchTemplate` response. -/
def handleSend (B : Backend) (st : ChatState) (input : String)
    (resp : ChatMatchResponse) : ChatState × List Request :=
  if jsTrim input = "" || st.isLoading then (st, [])
  else
    let q := jsTrim input
    let st1 := { st with userQuery := q, messages := st.messages ++ [userMsg q] }
    if jsStartsWith q "/vars" && st.currentTemplate.isSome then
      match st.currentTemplate with
      | some tid =>
          ({ st1 with messages := st1.messages ++ [varsMsg] }, [Request.templateReq tid])
      | none => (st1, [])
    else
      match resp.best_match with
      | none =>
          ({ st1 with messages := st1.messages ++ [noMatchMsg], isLoading := false },
           [Request.matchReq q])
      | some best =>
          let st2 := { st1 with
            currentAnswers := resp.prefilled_variables
            currentTemplate := some best.template_id
            messages := st1.messages ++ [matchMsg best resp.alternatives] }
          if 0 < resp.missing_variables.length then
            let qs := B.ask best.template_id resp.missing_variables
            if 0 < qs.length then
              ({ st2 with pendingQuestions := some qs
                          messages := st2.messages ++ [questionsMsg qs]
                          isLoading := false },
               [Request.matchReq q,
                Request.questionsReq best.template_id resp.missing_variables])
            else
              let (m, r) := genDraft B best.template_id resp.prefilled_variables st.userQuery
              ({ st2 with messages := st2.messages ++ [m], isLoading := false },
               [Request.matchReq q,
                Request.questionsReq best.template_id resp.missing_variables, r])
          else
            let (m, r) := genDraft B best.template_id resp.prefilled_variables st.userQuery
            ({ st2 with messages := st2.messages ++ [m], isLoading := false },
             [Request.matchReq q, r])

/-- The text of the user bubble echoing an answer batch. -/
def answersText (batch : List (String × String)) : String :=
  String.intercalate "\n" (batch.map (fun p => p.1 ++ ": " ++ p.2))

/-- `handleAnswerSubmit` of `ChatInterface.tsx`: merges the batch into
`currentAnswers` with the JS spread, clears `pendingQuestions`, echoes
the batch, and (when a template is selected) generates the draft from
the merged map. -/
def handleAnswerSubmit (B : Backend) (st : ChatState)
    (batch : List (String × String)) : ChatState × List Request :=
  let allAnswers := jsSpread st.currentAnswers batch
  let st1 := { st with
    currentAnswers := allAnswers
    pendingQuestions := none
    messages := st.messages ++ [userMsg (answersText batch)] }
  match st.currentTemplate with
  | some tid =>
      let (m, r) := genDraft B tid allAnswers st.userQuery
      ({ st1 with messages := st1.messages ++ [m], isLoading := false }, [r])
  | none => (st1, [])

/-- `handleUseTemplate` of `ChatInterface.tsx`: selects the template,
fetches it, requests questions for all of its declared variable keys in
declared order, and shows them when non-empty.  `currentAnswers` and
`userQuery` are not touched.  `t` is the awaited `getTemplate`
response. -/
def handleUseTemplate (B : Backend) (st : ChatState) (tid : String)
    (t : Template) : ChatState × List Request :=
  let st1 := { st with currentTemplate := some tid }
  let ks := t.«variables».map (·.key)
  let qs := B.ask tid ks
  if 0 < qs.length then
    ({ st1 with pendingQuestions := some qs
                messages := st1.messages ++ [questionsMsg qs] },
     [Request.templateReq tid, Request.questionsReq tid ks])
  else
    (st1, [Request.templateReq tid, Request.questionsReq tid ks])

/-! ## Spec-modelled backend engine pieces

The Template Resolution Engine (matcher, resolver, question generator,
renderer) is implemented in the Python backend, which is not among the
sources under verification; the definitions below are modelled from the
specification and are marked as such. -/

/-- The taxonomy of engine errors (spec section 7). -/
inductive EngineError where
  | invalidInput
  | storageFailure
deriving DecidableEq, Repr

/-- Outcome of the matcher (spec section 4.1). -/
structure MatchOutcome where
  best_match : Option TemplateMatchResult := none
  alternatives : List TemplateMatchResult := []
deriving DecidableEq, Repr

/-- Modelled from the spec: the Matcher threshold policy (section 4.1).
The ranked candidate list returned by the text-intelligence port is
passed in; a candidate becomes best only if its score meets the 0.5
acceptance threshold, otherwise best is absent and all candidates are
returned as alternatives.  The backend matcher itself is not among the
sources under verification. -/
def specMatchOutcome (ranked : List TemplateMatchResult) : MatchOutcome :=
  match ranked with
  | [] => { best_match := none, alternatives := [] }
  | c :: rest =>
      if (1 : ℚ)/2 ≤ c.score then { best_match := some c, alternatives := rest }
      else { best_match := none, alternatives := c :: rest }

/-- Modelled from the spec: the match endpoint input constraint
(section 4.1): a query that is empty after trimming fails with
InvalidInputError.  The backend route is not among the sources under
verification. -/
def matchEndpoint (ranked : List TemplateMatchResult) (query : String) :
    Except EngineError MatchOutcome :=
  if jsTrim query = "" then Except.error EngineError.invalidInput
  else Except.ok (specMatchOutcome ranked)

/-- Modelled from the spec: the Question Generator (section 4.3) with
its deterministic fallback phrasing; one question per missing key,
preserving the input key order.  The backend generator is not among the
sources under verification. -/
def specAsk (t : Template) (missingKeys : List String) : List VariableQuestion :=
  missingKeys.map (fun k =>
    match t.«variables».find? (fun v => v.key == k) with
    | some v =>
        { key := k
          question := "What is the " ++ v.label ++ "?"
          hint := v.description
          «example» := v.«example»
          required := v.required }
    | none =>
        { key := k
          question := "What is the " ++ k ++ "?"
          required := true })

/-! ## JavaScript regular expressions (fragment used by `handleSave`)

`VariableReview.handleSave` builds `new RegExp(v.example, g)` directly
from the user-editable example string and calls
`bodyMd.replace(regex, placeholder)`.  The model below embeds the
fragment of JS regex semantics these inputs exercise: literal
characters, the any-character atom `.`, backslash escapes of
punctuation, and parenthesis balance checking.  `none` stands for a
SyntaxError thrown by the RegExp constructor or for a pattern outside
the modelled fragment (quantifiers, alternation, classes, anchors are
not modelled; the theorems below never instantiate them). -/

/-- One atom of the modelled regex fragment. -/
inductive RAtom where
  | lit (c : Char)
  | dot
deriving DecidableEq, Repr

/-- Atom-versus-character match; `.` matches any character except a
line terminator. -/
def atomMatch : RAtom → Char → Bool
  | RAtom.lit c, d => c == d
  | RAtom.dot, d => !(d == '\n' || d == '\r')

/-- Characters that the modelled fragment treats as plain literals. -/
def regexPlain (c : Char) : Bool :=
  !(c ∈ ['(', ')', '.', '\\', '*', '+', '?', '|', '[', ']', '^', '$', '{', '}'])

/-- Parser for the modelled regex fragment; the natural number tracks
the nesting depth of open groups, so a lone `(` at depth 0 left open at
the end of input is a SyntaxError, as is an unmatched `)`.  Escapes,
quantifiers, alternation, classes and anchors are outside the modelled
fragment and map to `none`. -/
def parseRegexAux (s : List Char) (d : Nat) : Option (List RAtom) :=
  match s with
  | [] => if d = 0 then some [] else none
  | c :: rest =>
    if c = '(' then parseRegexAux rest (d + 1)
    else if c = ')' then (if d = 0 then none else parseRegexAux rest (d - 1))
    else if c = '.' then (parseRegexAux rest d).map (RAtom.dot :: ·)
    else if c ∈ ['\\', '*', '+', '?', '|', '[', ']', '^', '$'] then none
    else (parseRegexAux rest d).map (RAtom.lit c :: ·)

/-- Compile an example string to a regex, `new RegExp(src, g)`. -/
def parseRegex (src : List Char) : Option (List RAtom) :=
  parseRegexAux src 0

/-- Does the atom list match a prefix of the string (consuming exactly
`ats.length` characters)? -/
def regexMatchHere : List RAtom → List Char → Bool
  | [], _ => true
  | _ :: _, [] => false
  | a :: ats, c :: cs => atomMatch a c && regexMatchHere ats cs

/-- Fuel-indexed worker for `regexReplaceAll`; every step consumes at
least one character, so fuel equal to the string length always
suffices (see `regexReplaceAllF_fuel`). -/
def regexReplaceAllF (ats : List RAtom) (repl : List Char) : Nat → List Char → List Char
  | _, [] => []
  | 0, s => s
  | fuel + 1, c :: rest =>
    if 0 < ats.length ∧ regexMatchHere ats (c :: rest) then
      repl ++ regexReplaceAllF ats repl fuel (rest.drop (ats.length - 1))
    else
      c :: regexReplaceAllF ats repl fuel rest

/-- `String.prototype.replace` with a `g`-flagged regex: scan left to
right, replace each non-overlapping leftmost match by `repl`, resume
after the match.  (The empty pattern, which JS treats specially, is
outside the modelled fragment and is left unreplaced.) -/
def regexReplaceAll (ats : List RAtom) (repl : List Char) (s : List Char) : List Char :=
  regexReplaceAllF ats repl s.length s

/-- The template body built by `VariableReview.handleSave`: starting
from the extracted text preview, each variable with a non-empty example
has `new RegExp(example, g)` applied, replacing every match by
`\x7b\x7b key \x7d\x7d`.  `none` models the SyntaxError escaping the
handler (so `onSave` is never called and no template is saved). -/
def saveStep (acc : Option (List Char)) (v : Variable) : Option (List Char) :=
  acc.bind (fun body =>
    match v.«example» with
    | none => some body
    | some e =>
        if e = "" then some body
        else
          match parseRegex e.toList with
          | none => none
          | some ats =>
              some (regexReplaceAll ats
                ('{' :: '{' :: (v.key.toList ++ ['}', '}'])) body))

/-- The full body computation of `handleSave` (see `saveStep`). -/
def saveBodyMd (extracted : List Char) (vars : List Variable) : Option (List Char) :=
  vars.foldl saveStep (some extracted)

/-- The payload handed to `onSave` by `VariableReview.handleSave`. -/
structure SavePayload where
  title : String
  docType : String
  tags : List String
  «variables» : List Variable
  bodyMd : List Char
deriving DecidableEq, Repr

/-- `VariableReview.handleSave`: builds the body (which may throw, see
`saveBodyMd`), splits and trims the tag string, and hands the payload
to `onSave`. -/
def handleSave (title docType tagsStr : String) (vars : List Variable)
    (extracted : List Char) : Option SavePayload :=
  (saveBodyMd extracted vars).map (fun b =>
    { title := title
      docType := docType
      tags := (((splitComma tagsStr.toList).map (fun g => String.mk (jsTrimList g))).filter (· ≠ ""))
      «variables» := vars
      bodyMd := b })

/-! ## Placeholders -/

/-- Key characters of a `\x7b\x7bkey\x7d\x7d` placeholder (identifier
characters). -/
def isKeyChar (c : Char) : Bool :=
  c.isAlphanum || c == '_'

/-- Boolean contiguous-substring test. -/
def isSub (p : List Char) : List Char → Bool
  | [] => p.isEmpty
  | c :: rest => isPref p (c :: rest) || isSub p rest

/-- `p` names a placeholder of `body`: `\x7b\x7bp\x7d\x7d` occurs in
`body` and `p` is a non-empty identifier. -/
def isPlaceholderKey (body p : List Char) : Prop :=
  p ≠ [] ∧ (∀ c ∈ p, isKeyChar c = true) ∧
    isSub ('{' :: '{' :: (p ++ ['}', '}'])) body = true

/-! ## Renderer (spec-modelled)

The Renderer lives in the backend and is not among the sources under
verification. -/

/-- Modelled from the spec: the empty-value marker substituted for a
placeholder whose key has no entry in the value map (section 4.4); the
concrete marker text is a free design choice. -/
def emptyMarker (k : List Char) : List Char :=
  '[' :: '[' :: (k ++ [']', ']'])

/-- Modelled from the spec: `render(template, values)` (section 4.4), a
pure single left-to-right pass.  At `\x7b\x7b` the maximal identifier
run is read; if it is non-empty and immediately closed by `\x7d\x7d`
the placeholder is replaced (by the value, or by the empty-value marker
when the key is unbound) and scanning resumes after the closing braces,
never inside the substituted value; otherwise the brace is emitted
literally and scanning resumes one character later.  The backend
renderer is not among the sources under verification. -/
def render (values : List (String × String)) : List Char → List Char
  | [] => []
  | '{' :: '{' :: rest =>
    let k := rest.takeWhile isKeyChar
    let r := rest.dropWhile isKeyChar
    if k ≠ [] ∧ r.take 2 = ['}', '}'] then
      (match alookup values (String.mk k) with
       | some v => v.toList
       | none => emptyMarker k) ++ render values (r.drop 2)
    else
      '{' :: render values ('{' :: rest)
  | c :: rest => c :: render values rest
termination_by s => s.length
decreasing_by
  · have h1 : (rest.dropWhile isKeyChar).length ≤ rest.length :=
      (List.dropWhile_sublist isKeyChar).length_le
    simp only [List.length_cons, List.length_drop]
    omega
  · simp
  · simp

/-! ## File upload (`FileUpload.uploadFile`) -/

/-- A browser `File` as far as `uploadFile` can observe it. -/
structure JSFile where
  name : String
  mimeType : String
deriving DecidableEq, Repr

/-- The MIME allow-list declared (but never read) by `uploadFile`. -/
def allowedTypes : List String :=
  ["application/vnd.openxmlformats-officedocument.wordprocessingml.document",
   "application/pdf"]

/-- The extension allow-list of `uploadFile`. -/
def allowedExtensions : List String :=
  [".docx", ".pdf"]

/-- ASCII `String.prototype.toLowerCase`, one character. -/
def jsLower (c : Char) : Char :=
  if c = 'A' then 'a' else if c = 'B' then 'b' else if c = 'C' then 'c'
  else if c = 'D' then 'd' else if c = 'E' then 'e' else if c = 'F' then 'f'
  else if c = 'G' then 'g' else if c = 'H' then 'h' else if c = 'I' then 'i'
  else if c = 'J' then 'j' else if c = 'K' then 'k' else if c = 'L' then 'l'
  else if c = 'M' then 'm' else if c = 'N' then 'n' else if c = 'O' then 'o'
  else if c = 'P' then 'p' else if c = 'Q' then 'q' else if c = 'R' then 'r'
  else if c = 'S' then 's' else if c = 'T' then 't' else if c = 'U' then 'u'
  else if c = 'V' then 'v' else if c = 'W' then 'w' else if c = 'X' then 'x'
  else if c = 'Y' then 'y' else if c = 'Z' then 'z' else c

/-- `String.prototype.lastIndexOf` for a single character, returning -1
when absent, as in JS. -/
def jsLastIndexOf (s : List Char) (c : Char) : Int :=
  match s with
  | [] => -1
  | a :: rest =>
      let r := jsLastIndexOf rest c
      if 0 ≤ r then r + 1 else if a = c then 0 else -1

/-- `String.prototype.slice` with a single start argument (negative
start counts from the end, as in JS). -/
def jsSliceFrom (s : List Char) (i : Int) : List Char :=
  if i < 0 then s.drop (s.length + i).toNat else s.drop i.toNat

/-- The extension computed by `uploadFile`:
`file.name.toLowerCase().slice(file.name.lastIndexOf('.'))` (the index
is taken on the original name, the slice on the lowercased name). -/
def uploadExtension (name : List Char) : List Char :=
  jsSliceFrom (name.map jsLower) (jsLastIndexOf name '.')

/-- Outcome of `uploadFile` up to the network boundary. -/
inductive UploadOutcome where
  | rejectedNoRequest
  | sentRequest
deriving DecidableEq, Repr

/-- `FileUpload.uploadFile`: rejects (calling `onError`, issuing no
network request) unless the computed extension is allow-listed;
otherwise POSTs the file.  Only `file.name` is consulted. -/
def uploadFile (f : JSFile) : UploadOutcome :=
  if String.mk (uploadExtension f.name.toList) ∈ allowedExtensions then
    UploadOutcome.sentRequest
  else
    UploadOutcome.rejectedNoRequest

/-! ## Fixtures for concrete witnesses -/

/-- A trivial backend oracle for concrete runs: no questions, an empty
draft. -/
def stubBackend : Backend :=
  { ask := fun _ _ => []
    gen := fun _ _ _ => { draft_id := 0, draft_md := "", template_title := "" } }

/-- A concrete candidate whose score is below the 0.5 threshold. -/
def lowCand : TemplateMatchResult :=
  { template_id := "t9", title := "General Deed", score := 3/10, reason := "weak overlap" }

/-- A concrete two-variable template (shaped after the Incident Notice
sample). -/
def noticeTemplate : Template :=
  { id := 1
    template_id := "incident_notice"
    title := "Incident Notice to Insurer"
    doc_type := some "legal_notice"
    similarity_tags := ["insurance", "notice", "india"]
    body_md := ""
    «variables» :=
      [{ key := "policy_number", label := "Policy Number", required := true, dtype := "identifier" },
       { key := "incident_date", label := "Incident Date", required := true, dtype := "date" }] }

/-- The best-match candidate of the concrete notice scenario. -/
def noticeBest : TemplateMatchResult :=
  { template_id := "incident_notice"
    title := "Incident Notice to Insurer"
    score := 9/10
    reason := "strong match" }

/-- A concrete match response with a best template and one missing
variable. -/
def noticeResp : ChatMatchResponse :=
  { best_match := some noticeBest
    alternatives := []
    prefilled_variables := [("incident_date", "2024-03-01")]
    missing_variables := ["policy_number"] }

/-- A concrete chat state mid-collection: the notice template matched,
`incident_date` already prefilled. -/
def collectingState : ChatState :=
  { currentTemplate := some "incident_notice"
    currentAnswers := [("incident_date", "2024-03-01")]
    userQuery := "car accident notice" }

/-- A second concrete template, with one fresh variable key. -/
def leaseTemplate : Template :=
  { id := 2
    template_id := "lease_agreement"
    title := "Residential Lease Agreement"
    body_md := ""
    «variables» :=
      [{ key := "tenant_name", label := "Tenant Name", required := true, dtype := "party-name" }] }

/-- A backend oracle answering question requests from the notice
template, per the spec question generator. -/
def noticeBackend : Backend :=
  { ask := fun _ ks => specAsk noticeTemplate ks
    gen := fun _ _ _ => { draft_id := 1, draft_md := "", template_title := "" } }

/-- A variable whose user-edited example is an unbalanced `(`. -/
def parenVar : Variable :=
  { key := "k", label := "K", «example» := some "(", required := true, dtype := "text" }

/-- A variable whose user-edited example is a bare `.`. -/
def dotVar : Variable :=
  { key := "k", label := "K", «example» := some ".", required := true, dtype := "text" }

/-- Interleaving invariant for save-time bodies: the body is a
sequence of brace-free characters and whole `\x7b\x7bk\x7d\x7d`
blocks whose keys are drawn from `keys`. -/
inductive Chunks (keys : List (List Char)) : List Char → Prop where
  | nil : Chunks keys []
  | chr {c : Char} {s : List Char} : c ≠ '{' → c ≠ '}' →
      Chunks keys s → Chunks keys (c :: s)
  | blk {k : List Char} {s : List Char} : k ∈ keys →
      Chunks keys s → Chunks keys ('{' :: '{' :: (k ++ '}' :: '}' :: s))

/-- An extracted text that already carries placeholder-shaped text. -/
def ghostText : List Char :=
  ['H', 'e', 'l', 'l', 'o', ' ', '{', '{', 'g', 'h', 'o', 's', 't', '}', '}']

/-- A well-behaved variable for the save-time witness. -/
def policyVar : Variable :=
  { key := "policy_number", label := "Policy Number", «example» := some "PN-123",
    required := true, dtype := "identifier" }

/-- A brace-free extracted text containing the example of `policyVar`. -/
def policyText : List Char :=
  "Policy PN-123 is active".toList

/-! ## Lemmas about JS maps -/

/-- Filtering by a predicate implied by the search predicate does not
change `find?`. -/
theorem find?_filter_imp (l : List (String × String))
    (p q : (String × String) → Bool) (h : ∀ x, p x = true → q x = true) :
    (l.filter q).find? p = l.find? p := by
  induction l with
  | nil => rfl
  | cons x rest ih =>
      by_cases hq : q x = true
      · simp only [List.filter_cons, hq, if_true, List.find?]
        cases hp : p x <;> simp [List.find?, hp, ih]
      · have hp : p x = false := by
          cases hpx : p x
          · rfl
          · exact absurd (h x hpx) hq
        simp only [List.filter_cons, hq, if_false, List.find?, hp, Bool.false_eq_true]
        simpa [List.find?, hp] using ih

/-- A key present in the new batch wins in the JS spread. -/
theorem alookup_jsSpread_right (a b : List (String × String)) (k v : String)
    (h : alookup b k = some v) : alookup (jsSpread a b) k = some v := by
  have hfil : (a.filter (fun p => (alookup b p.1).isNone)).find? (fun p => p.1 == k) = none := by
    rw [List.find?_eq_none]
    intro x hx hpx
    have hk : x.1 = k := by simpa using hpx
    have : (alookup b x.1).isNone = true := (List.mem_filter.mp hx).2
    rw [hk, h] at this
    simp at this
  unfold jsSpread alookup at *
  rw [List.find?_append, hfil, Option.none_or]
  exact h

/-- A key absent from the new batch keeps its old value in the JS
spread. -/
theorem alookup_jsSpread_left (a b : List (String × String)) (k : String)
    (h : alookup b k = none) : alookup (jsSpread a b) k = alookup a k := by
  have hb : b.find? (fun p => p.1 == k) = none := by
    unfold alookup at h
    cases hf : b.find? (fun p => p.1 == k)
    · rfl
    · rw [hf] at h; simp at h
  have hfil : (a.filter (fun p => (alookup b p.1).isNone)).find? (fun p => p.1 == k)
      = a.find? (fun p => p.1 == k) := by
    apply find?_filter_imp
    intro x hpx
    have hk : x.1 = k := by simpa using hpx
    rw [hk, h]
    rfl
  unfold jsSpread
  unfold alookup at hfil ⊢
  rw [List.find?_append, hb, Option.or_none, hfil]

/-! ## Claim C5 -/

/-- C5: for every query that is empty after trimming, the match
operation fails with InvalidInputError (spec-modelled backend
validation), and the chat interface issues no request at all for such
an input: `handleSend` returns with the state unchanged before calling
`matchTemplate`. -/
theorem emptyQueryRejected (q : String) (ranked : List TemplateMatchResult)
    (B : Backend) (st : ChatState) (resp : ChatMatchResponse)
    (h : jsTrim q = "") :
    matchEndpoint ranked q = Except.error EngineError.invalidInput ∧
    handleSend B st q resp = (st, []) := by
  constructor
  · simp [matchEndpoint, h]
  · simp [handleSend, h]

/-- C5 witness: the whitespace-only query. -/
theorem emptyQueryRejectedWitness :
    matchEndpoint [] "   " = Except.error EngineError.invalidInput ∧
    handleSend stubBackend {} "   " {} = ({}, []) :=
  emptyQueryRejected "   " [] stubBackend {} {} (by decide)

/-! ## Claim C2 -/

/-- C2: for every answer batch submitted during answer collection, the
value map used afterwards is the JS-spread merge of the accumulated
answers with the batch: a batch key takes its batch value, a previously
answered key omitted from the batch keeps its old value, the merged map
is what the draft-generation request carries, and no further question
request is issued (the pending question form is cleared), so an
answered key is never asked again. -/
theorem answerBatchMerged (B : Backend) (st : ChatState)
    (batch : List (String × String)) (tid : String)
    (h : st.currentTemplate = some tid) :
    (∀ k v, alookup batch k = some v →
       alookup (handleAnswerSubmit B st batch).1.currentAnswers k = some v) ∧
    (∀ k v, alookup st.currentAnswers k = some v → alookup batch k = none →
       alookup (handleAnswerSubmit B st batch).1.currentAnswers k = some v) ∧
    (handleAnswerSubmit B st batch).1.currentAnswers = jsSpread st.currentAnswers batch ∧
    (handleAnswerSubmit B st batch).2 =
      [Request.generateReq tid (jsSpread st.currentAnswers batch) st.userQuery] ∧
    (handleAnswerSubmit B st batch).1.pendingQuestions = none := by
  have hca : (handleAnswerSubmit B st batch).1.currentAnswers
      = jsSpread st.currentAnswers batch := by
    simp [handleAnswerSubmit, h, genDraft]
  refine ⟨?_, ?_, hca, ?_, ?_⟩
  · intro k v hkv
    rw [hca]
    exact alookup_jsSpread_right _ _ _ _ hkv
  · intro k v hold hnone
    rw [hca, alookup_jsSpread_left _ _ _ hnone]
    exact hold
  · simp [handleAnswerSubmit, h, genDraft]
  · simp [handleAnswerSubmit, h, genDraft]

/-- C2 witness: the old key `incident_date` is kept although the new
batch only carries `policy_number`. -/
theorem answerBatchMergedWitness :
    collectingState.currentTemplate = some "incident_notice" ∧
    alookup
      (handleAnswerSubmit stubBackend collectingState [("policy_number", "PN-7")]).1.currentAnswers
      "incident_date" = some "2024-03-01" := by
  have h := answerBatchMerged stubBackend collectingState [("policy_number", "PN-7")]
    "incident_notice" (by decide)
  exact ⟨by decide, h.2.1 "incident_date" "2024-03-01" (by decide) (by decide)⟩

/-! ## Claim C6 -/

/-- C6: the question generator (spec-modelled, section 4.3) outputs
exactly one question per input key, preserving the input key order; and
when a template is selected directly via Use This Template, questions
are requested for the declared variable keys in declared order and the
resulting form shows them in that same order (the form renders the
question list in list order). -/
theorem askPreservesOrder (t : Template) (ks : List String) (B : Backend)
    (st : ChatState) (tid : String) :
    ((specAsk t ks).map (·.key) = ks) ∧
    ((handleUseTemplate { B with ask := fun _ l => specAsk t l } st tid t).2 =
       [Request.templateReq tid, Request.questionsReq tid (t.«variables».map (·.key))]) ∧
    (t.«variables» ≠ [] →
       (handleUseTemplate { B with ask := fun _ l => specAsk t l } st tid t).1.pendingQuestions =
         some (specAsk t (t.«variables».map (·.key))) ∧
       (handleUseTemplate { B with ask := fun _ l => specAsk t l } st tid t).1.messages =
         st.messages ++ [questionsMsg (specAsk t (t.«variables».map (·.key)))]) := by
  have horder : ∀ l : List String, (specAsk t l).map (·.key) = l := by
    intro l
    unfold specAsk
    rw [List.map_map]
    conv_rhs => rw [← List.map_id l]
    apply List.map_congr_left
    intro k _
    simp only [Function.comp_apply, id]
    cases hf : t.«variables».find? (fun v => v.key == k) <;> rfl
  refine ⟨horder ks, ?_, ?_⟩
  · simp only [handleUseTemplate]
    split <;> rfl
  · intro hne
    have hlen : 0 < (specAsk t (t.«variables».map (·.key))).length := by
      have := congrArg List.length (horder (t.«variables».map (·.key)))
      simp only [List.length_map] at this
      simp only [this, List.length_map]
      exact List.length_pos.mpr hne
    simp [handleUseTemplate, hlen]

/-- C6 witness: selecting the notice template asks for
`policy_number` then `incident_date`, in declared order. -/
theorem askPreservesOrderWitness :
    noticeTemplate.«variables» ≠ [] ∧
    ((specAsk noticeTemplate ["policy_number", "incident_date"]).map (·.key) =
       ["policy_number", "incident_date"]) ∧
    (handleUseTemplate { stubBackend with ask := fun _ l => specAsk noticeTemplate l }
        {} "incident_notice" noticeTemplate).1.pendingQuestions =
      some (specAsk noticeTemplate ["policy_number", "incident_date"]) := by
  have h := askPreservesOrder noticeTemplate ["policy_number", "incident_date"] stubBackend
    {} "incident_notice"
  exact ⟨by decide, h.1, (h.2.2 (by decide)).1⟩

/-! ## Claim C9 -/

/-- C9: Use This Template changes only the selected template and the
pending questions: `currentAnswers` (and `userQuery`) are untouched, so
values accumulated under a previously matched template — including keys
foreign to the new template — are merged into the answers of the next
draft-generation request (an old key absent from the submitted batch
rides along with its old value). -/
theorem useTemplateKeepsAnswers (B : Backend) (st : ChatState) (tid : String)
    (t : Template) (batch : List (String × String)) :
    ((handleUseTemplate B st tid t).1.currentAnswers = st.currentAnswers) ∧
    ((handleUseTemplate B st tid t).1.userQuery = st.userQuery) ∧
    ((handleAnswerSubmit B (handleUseTemplate B st tid t).1 batch).2 =
       [Request.generateReq tid (jsSpread st.currentAnswers batch) st.userQuery]) ∧
    (∀ k v, alookup st.currentAnswers k = some v → alookup batch k = none →
       alookup (jsSpread st.currentAnswers batch) k = some v) := by
  have hca : (handleUseTemplate B st tid t).1.currentAnswers = st.currentAnswers := by
    simp only [handleUseTemplate]
    split <;> rfl
  have huq : (handleUseTemplate B st tid t).1.userQuery = st.userQuery := by
    simp only [handleUseTemplate]
    split <;> rfl
  have hct : (handleUseTemplate B st tid t).1.currentTemplate = some tid := by
    simp only [handleUseTemplate]
    split <;> rfl
  refine ⟨hca, huq, ?_, ?_⟩
  · simp [handleAnswerSubmit, hct, hca, huq, genDraft]
  · intro k v hold hnone
    rw [alookup_jsSpread_left _ _ _ hnone]
    exact hold

/-- C9 witness: after switching from the matched notice template to the
lease template, the foreign prefilled key `incident_date` is still part
of the generated-draft answers. -/
theorem useTemplateKeepsAnswersWitness :
    ((handleAnswerSubmit stubBackend
        (handleUseTemplate stubBackend collectingState "lease_agreement" leaseTemplate).1
        [("tenant_name", "A. Rao")]).2 =
      [Request.generateReq "lease_agreement"
        (jsSpread collectingState.currentAnswers [("tenant_name", "A. Rao")])
        "car accident notice"]) ∧
    alookup (jsSpread collectingState.currentAnswers [("tenant_name", "A. Rao")])
      "incident_date" = some "2024-03-01" := by
  have h := useTemplateKeepsAnswers stubBackend collectingState "lease_agreement"
    leaseTemplate [("tenant_name", "A. Rao")]
  exact ⟨h.2.2.1, h.2.2.2 "incident_date" "2024-03-01" (by decide) (by decide)⟩

/-! ## Claim C1 -/

/-- C1: for every match result with a best template, under a question
generator that returns one question per requested key (as the
spec-modelled generator does): when the missing-variable list is
non-empty, `handleSend` requests questions for exactly those keys,
shows them, stores them as the pending form, and issues no
draft-generation request in that turn; when the missing-variable list
is empty, it immediately issues the draft-generation request carrying
only the prefilled values, and no question request is issued. -/
theorem matchedFlowQuestionsBeforeDraft (B : Backend) (st : ChatState)
    (input : String) (resp : ChatMatchResponse) (best : TemplateMatchResult)
    (hload : st.isLoading = false)
    (hinput : ¬ jsTrim input = "")
    (hvars : (jsStartsWith (jsTrim input) "/vars" && st.currentTemplate.isSome) = false)
    (hbest : resp.best_match = some best)
    (hask : (B.ask best.template_id resp.missing_variables).map (·.key)
      = resp.missing_variables) :
    (resp.missing_variables ≠ [] →
      (handleSend B st input resp).2 =
        [Request.matchReq (jsTrim input),
         Request.questionsReq best.template_id resp.missing_variables] ∧
      (handleSend B st input resp).1.pendingQuestions =
        some (B.ask best.template_id resp.missing_variables) ∧
      (questionsMsg (B.ask best.template_id resp.missing_variables) ∈
        (handleSend B st input resp).1.messages) ∧
      (∀ tid a uq, Request.generateReq tid a uq ∉ (handleSend B st input resp).2)) ∧
    (resp.missing_variables = [] →
      (handleSend B st input resp).2 =
        [Request.matchReq (jsTrim input),
         Request.generateReq best.template_id resp.prefilled_variables st.userQuery] ∧
      (handleSend B st input resp).1.pendingQuestions = st.pendingQuestions ∧
      (∀ tid ks, Request.questionsReq tid ks ∉ (handleSend B st input resp).2)) := by
  constructor
  · intro hne
    have hmlen : 0 < resp.missing_variables.length := List.length_pos.mpr hne
    have hqlen : 0 < (B.ask best.template_id resp.missing_variables).length := by
      have := congrArg List.length hask
      simp only [List.length_map] at this
      omega
    simp [handleSend, hinput, hload, hvars, hbest, hmlen, hqlen]
  · intro hmt
    simp [handleSend, hinput, hload, hvars, hbest, hmt, genDraft]

/-- C1 witness: the notice match with `policy_number` missing leads to
the question turn with no draft request; the same response with nothing
missing leads to an immediate draft request with the prefilled values. -/
theorem matchedFlowQuestionsBeforeDraftWitness :
    ((handleSend noticeBackend {} "I need to notify my insurer" noticeResp).2 =
      [Request.matchReq "I need to notify my insurer",
       Request.questionsReq "incident_notice" ["policy_number"]]) ∧
    (∀ tid a uq, Request.generateReq tid a uq ∉
      (handleSend noticeBackend {} "I need to notify my insurer" noticeResp).2) ∧
    ((handleSend noticeBackend {} "I need to notify my insurer"
        { noticeResp with missing_variables := [] }).2 =
      [Request.matchReq "I need to notify my insurer",
       Request.generateReq "incident_notice" [("incident_date", "2024-03-01")] ""]) := by
  have h1 := matchedFlowQuestionsBeforeDraft noticeBackend {} "I need to notify my insurer"
    noticeResp noticeBest (by decide) (by decide) (by decide) rfl (by decide)
  have h2 := matchedFlowQuestionsBeforeDraft noticeBackend {} "I need to notify my insurer"
    { noticeResp with missing_variables := [] } noticeBest (by decide) (by decide) (by decide)
    rfl (by decide)
  refine ⟨?_, ?_, ?_⟩
  · exact (h1.1 (by decide)).1
  · exact (h1.1 (by decide)).2.2.2
  · exact (h2.2 rfl).1

/-! ## Claim C3 -/

/-- C3 counterexample: with no candidate at or above the 0.5 threshold
the response has no best match, yet the chat interface does not present
the alternatives as choices: the turn appends only the user bubble and
the plain no-match text bubble, and no appended message carries a
template card or an alternatives list (the alternative choice buttons
are only ever rendered inside a template card).  This refutes the
claim that the caller still presents those alternatives. -/
theorem noBestNoChoicesShown :
    lowCand.score < (1 : ℚ)/2 ∧
    (handleSend stubBackend {} "draft a deed"
        { best_match := none, alternatives := [lowCand] }).1.messages
      = [userMsg "draft a deed", noMatchMsg] ∧
    (∀ m ∈ (handleSend stubBackend {} "draft a deed"
        { best_match := none, alternatives := [lowCand] }).1.messages,
      m.templateMatch = none ∧ m.alternatives = none ∧ m.questions = none) := by
  refine ⟨by norm_num [lowCand], by decide, by decide⟩

/-- C3 (amended): when no candidate score meets the 0.5 acceptance
threshold, the (spec-modelled) matcher returns no best match and every
candidate, regardless of score, in the alternatives list; the chat
interface, however, does not present those alternatives: on a
no-best-match response it appends only the plain no-match text bubble,
with no template card, no alternatives and no questions, and issues no
request beyond the match call itself. -/
theorem belowThresholdAllAlternatives (ranked : List TemplateMatchResult)
    (B : Backend) (st : ChatState) (input : String) (resp : ChatMatchResponse)
    (hr : ∀ c ∈ ranked, c.score < (1 : ℚ)/2)
    (hbest : resp.best_match = none)
    (hload : st.isLoading = false)
    (hinput : ¬ jsTrim input = "")
    (hvars : (jsStartsWith (jsTrim input) "/vars" && st.currentTemplate.isSome) = false) :
    (specMatchOutcome ranked).best_match = none ∧
    (specMatchOutcome ranked).alternatives = ranked ∧
    (handleSend B st input resp).1.messages
      = st.messages ++ [userMsg (jsTrim input), noMatchMsg] ∧
    (handleSend B st input resp).2 = [Request.matchReq (jsTrim input)] ∧
    noMatchMsg.templateMatch = none ∧ noMatchMsg.alternatives = none ∧
    noMatchMsg.questions = none := by
  have houtcome : specMatchOutcome ranked
      = { best_match := none, alternatives := ranked } := by
    cases ranked with
    | nil => rfl
    | cons c rest =>
        have hc := hr c (List.mem_cons_self c rest)
        simp only [specMatchOutcome]
        rw [if_neg (not_le.mpr hc)]
  refine ⟨by rw [houtcome], by rw [houtcome], ?_, ?_, rfl, rfl, rfl⟩
  · simp [handleSend, hinput, hload, hvars, hbest]
  · simp [handleSend, hinput, hload, hvars, hbest]

/-- C3 witness for the amended statement, at the concrete low-scoring
candidate. -/
theorem belowThresholdAllAlternativesWitness :
    (specMatchOutcome [lowCand]).best_match = none ∧
    (specMatchOutcome [lowCand]).alternatives = [lowCand] ∧
    (handleSend stubBackend {} "draft a deed"
        { best_match := none, alternatives := [lowCand] }).1.messages
      = [userMsg "draft a deed", noMatchMsg] := by
  have h := belowThresholdAllAlternatives [lowCand] stubBackend {} "draft a deed"
    { best_match := none, alternatives := [lowCand] }
    (by intro c hc; rw [List.mem_singleton.mp hc]; norm_num [lowCand])
    rfl rfl (by decide) (by decide)
  exact ⟨h.1, h.2.1, by simpa using h.2.2.1⟩

/-! ## Claim C8 -/

/-- C8: `handleSave` compiles each raw example string as a regular
expression without escaping metacharacters.  With example `(` the
RegExp constructor throws (the parse is a SyntaxError), the save
handler aborts and no payload reaches `onSave`, so no template is
saved.  With example `.` the pattern matches any character, so in the
two-character body `ab` — which contains no literal dot at all — both
characters are replaced by the placeholder. -/
theorem unescapedExampleRegex :
    parseRegex ['('] = none ∧
    handleSave "T" "letter" "" [parenVar] ['a', 'b'] = none ∧
    saveBodyMd ['a', 'b'] [dotVar]
      = some ['{', '{', 'k', '}', '}', '{', '{', 'k', '}', '}'] ∧
    '.' ∉ ['a', 'b'] := by
  refine ⟨by decide, by decide, by decide, by decide⟩

/-! ## Lemmas about the renderer -/

/-- `takeWhile` walks through a block of satisfying characters. -/
theorem takeWhile_all_append (p : Char → Bool) (a b : List Char)
    (ha : ∀ c ∈ a, p c = true) :
    (a ++ b).takeWhile p = a ++ b.takeWhile p := by
  induction a with
  | nil => rfl
  | cons c rest ih =>
      have hc : p c = true := ha c (List.mem_cons_self c rest)
      simp only [List.cons_append, List.takeWhile_cons, hc, if_true]
      rw [ih (fun x hx => ha x (List.mem_cons_of_mem c hx))]

/-- `dropWhile` walks through a block of satisfying characters. -/
theorem dropWhile_all_append (p : Char → Bool) (a b : List Char)
    (ha : ∀ c ∈ a, p c = true) :
    (a ++ b).dropWhile p = b.dropWhile p := by
  induction a with
  | nil => rfl
  | cons c rest ih =>
      have hc : p c = true := ha c (List.mem_cons_self c rest)
      simp only [List.cons_append, List.dropWhile_cons, hc, if_true]
      exact ih (fun x hx => ha x (List.mem_cons_of_mem c hx))

/-- A character other than `\x7b` is copied verbatim by the renderer. -/
theorem render_cons_ne (v : List (String × String)) (c : Char) (rest : List Char)
    (h : c ≠ '{') :
    render v (c :: rest) = c :: render v rest := by
  rw [render.eq_def]
  split
  · simp_all
  · simp_all
  · simp_all

/-- The renderer consumes a well-formed placeholder in one step,
emitting the bound value (or the empty marker) verbatim and resuming
after the closing braces. -/
theorem render_placeholder_step (v : List (String × String)) (k s : List Char)
    (hk : k ≠ []) (hkc : ∀ c ∈ k, isKeyChar c = true) :
    render v ('{' :: '{' :: (k ++ '}' :: '}' :: s))
      = (match alookup v (String.mk k) with
         | some w => w.toList
         | none => emptyMarker k) ++ render v s := by
  rw [render.eq_def]
  have htake : (k ++ '}' :: '}' :: s).takeWhile isKeyChar = k := by
    rw [takeWhile_all_append isKeyChar k _ hkc]
    simp [List.takeWhile_cons, isKeyChar]
  have hdrop : (k ++ '}' :: '}' :: s).dropWhile isKeyChar = '}' :: '}' :: s := by
    rw [dropWhile_all_append isKeyChar k _ hkc]
    simp [List.dropWhile_cons, isKeyChar]
  simp only [htake, hdrop]
  rw [if_pos (show k ≠ [] ∧ ('}' :: '}' :: s).take 2 = ['}', '}'] from ⟨hk, rfl⟩)]
  rfl

/-- Brace-free text passes through the renderer unchanged. -/
theorem render_append_free (v : List (String × String)) (p t : List Char)
    (hp : ∀ c ∈ p, c ≠ '{') :
    render v (p ++ t) = p ++ render v t := by
  induction p with
  | nil => rfl
  | cons c rest ih =>
      have hc : c ≠ '{' := hp c (List.mem_cons_self c rest)
      rw [List.cons_append, render_cons_ne v c _ hc,
        ih (fun x hx => hp x (List.mem_cons_of_mem c hx)), List.cons_append]

/-! ## Claim C7 -/

/-- C7: the (spec-modelled) renderer substitutes in a single
deterministic pass.  Around a placeholder `\x7b\x7b k \x7d\x7d`, the
bound value is emitted verbatim between the untouched preceding text
and the rendering of the remaining text: scanning resumes after the
closing braces and never inside the substituted value, so a value
containing `\x7b\x7b...\x7d\x7d`-shaped text is emitted literally and
never re-expanded.  Byte-identical determinism is immediate since
`render` is a pure function of its two arguments. -/
theorem renderSinglePassLiteralValues (values : List (String × String))
    (p k s : List Char) (w : String)
    (hp : ∀ c ∈ p, c ≠ '{')
    (hk : k ≠ []) (hkc : ∀ c ∈ k, isKeyChar c = true)
    (hw : alookup values (String.mk k) = some w) :
    render values (p ++ '{' :: '{' :: (k ++ '}' :: '}' :: s))
      = p ++ w.toList ++ render values s := by
  rw [render_append_free values p _ hp, render_placeholder_step values k s hk hkc, hw]
  simp

/-- C7 witness: key `a` is bound to the text `\x7b\x7bb\x7d\x7d`; the
render of `\x7b\x7ba\x7d\x7d` emits that text literally even though key
`b` is itself bound (to `X`), i.e. no recursive substitution happens. -/
theorem renderSinglePassLiteralValuesWitness :
    render [("a", String.mk ['{', '{', 'b', '}', '}']), ("b", "X")]
        ('{' :: '{' :: 'a' :: '}' :: '}' :: [])
      = ['{', '{', 'b', '}', '}'] ∧
    alookup [("a", String.mk ['{', '{', 'b', '}', '}']), ("b", "X")] "b" = some "X" := by
  have h := renderSinglePassLiteralValues
    [("a", String.mk ['{', '{', 'b', '}', '}']), ("b", "X")]
    [] ['a'] [] (String.mk ['{', '{', 'b', '}', '}'])
    (by decide) (by decide) (by decide) (by decide)
  refine ⟨?_, by decide⟩
  simpa [render] using h

/-! ## Lemmas about the upload extension computation -/

/-- A map equation along an append splits the original list. -/
theorem map_eq_append_split (f : Char → Char) :
    ∀ (l pre suf : List Char), l.map f = pre ++ suf →
      ∃ l1 l2, l = l1 ++ l2 ∧ l1.map f = pre ∧ l2.map f = suf := by
  intro l pre
  induction pre generalizing l with
  | nil => exact fun suf h => ⟨[], l, by simpa using h⟩
  | cons x pre ih =>
      intro suf h
      cases l with
      | nil => simp at h
      | cons a l =>
          simp only [List.map_cons, List.cons_append, List.cons.injEq] at h
          obtain ⟨l1, l2, hl, hpre, hsuf⟩ := ih l suf h.2
          exact ⟨a :: l1, l2, by simp [hl], by simp [h.1, hpre], hsuf⟩

/-- Only the dot lowercases to a dot. -/
theorem jsLower_eq_dot (c : Char) (h : jsLower c = '.') : c = '.' := by
  by_cases h1 : c = 'A'
  · subst h1; exact absurd h (by decide)
  by_cases h2 : c = 'B'
  · subst h2; exact absurd h (by decide)
  by_cases h3 : c = 'C'
  · subst h3; exact absurd h (by decide)
  by_cases h4 : c = 'D'
  · subst h4; exact absurd h (by decide)
  by_cases h5 : c = 'E'
  · subst h5; exact absurd h (by decide)
  by_cases h6 : c = 'F'
  · subst h6; exact absurd h (by decide)
  by_cases h7 : c = 'G'
  · subst h7; exact absurd h (by decide)
  by_cases h8 : c = 'H'
  · subst h8; exact absurd h (by decide)
  by_cases h9 : c = 'I'
  · subst h9; exact absurd h (by decide)
  by_cases h10 : c = 'J'
  · subst h10; exact absurd h (by decide)
  by_cases h11 : c = 'K'
  · subst h11; exact absurd h (by decide)
  by_cases h12 : c = 'L'
  · subst h12; exact absurd h (by decide)
  by_cases h13 : c = 'M'
  · subst h13; exact absurd h (by decide)
  by_cases h14 : c = 'N'
  · subst h14; exact absurd h (by decide)
  by_cases h15 : c = 'O'
  · subst h15; exact absurd h (by decide)
  by_cases h16 : c = 'P'
  · subst h16; exact absurd h (by decide)
  by_cases h17 : c = 'Q'
  · subst h17; exact absurd h (by decide)
  by_cases h18 : c = 'R'
  · subst h18; exact absurd h (by decide)
  by_cases h19 : c = 'S'
  · subst h19; exact absurd h (by decide)
  by_cases h20 : c = 'T'
  · subst h20; exact absurd h (by decide)
  by_cases h21 : c = 'U'
  · subst h21; exact absurd h (by decide)
  by_cases h22 : c = 'V'
  · subst h22; exact absurd h (by decide)
  by_cases h23 : c = 'W'
  · subst h23; exact absurd h (by decide)
  by_cases h24 : c = 'X'
  · subst h24; exact absurd h (by decide)
  by_cases h25 : c = 'Y'
  · subst h25; exact absurd h (by decide)
  by_cases h26 : c = 'Z'
  · subst h26; exact absurd h (by decide)
  unfold jsLower at h
  rw [if_neg h1, if_neg h2, if_neg h3, if_neg h4, if_neg h5, if_neg h6, if_neg h7, if_neg h8, if_neg h9, if_neg h10, if_neg h11, if_neg h12, if_neg h13, if_neg h14, if_neg h15, if_neg h16, if_neg h17, if_neg h18, if_neg h19, if_neg h20, if_neg h21, if_neg h22, if_neg h23, if_neg h24, if_neg h25, if_neg h26] at h
  exact h

/-- `lastIndexOf` is at least -1. -/
theorem jsLastIndexOf_ge (s : List Char) (c : Char) : -1 ≤ jsLastIndexOf s c := by
  induction s with
  | nil => exact le_refl _
  | cons a rest ih =>
      simp only [jsLastIndexOf]
      split
      · omega
      · split <;> omega

/-- `lastIndexOf` of an absent character is -1. -/
theorem jsLastIndexOf_not_mem (s : List Char) (c : Char) (h : c ∉ s) :
    jsLastIndexOf s c = -1 := by
  induction s with
  | nil => rfl
  | cons a rest ih =>
      have hne : a ≠ c := fun hEq => h (hEq ▸ List.mem_cons_self a rest)
      have hr : jsLastIndexOf rest c = -1 := ih (fun hm => h (List.mem_cons_of_mem a hm))
      simp [jsLastIndexOf, hr, hne]

/-- `lastIndexOf` looks in the right part first. -/
theorem jsLastIndexOf_append (a b : List Char) (c : Char) :
    jsLastIndexOf (a ++ b) c =
      if 0 ≤ jsLastIndexOf b c then (a.length : Int) + jsLastIndexOf b c
      else jsLastIndexOf a c := by
  induction a with
  | nil =>
      simp only [List.nil_append, List.length_nil, Int.natCast_zero, Int.zero_add]
      split
      · rfl
      · next hb =>
          have hge := jsLastIndexOf_ge b c
          show jsLastIndexOf b c = -1
          omega
  | cons x a ih =>
      simp only [List.cons_append]
      rw [show jsLastIndexOf (x :: (a ++ b)) c
          = (if 0 ≤ jsLastIndexOf (a ++ b) c then jsLastIndexOf (a ++ b) c + 1
             else if x = c then 0 else -1) from rfl]
      rw [show jsLastIndexOf (x :: a) c
          = (if 0 ≤ jsLastIndexOf a c then jsLastIndexOf a c + 1
             else if x = c then 0 else -1) from rfl]
      rw [ih]
      by_cases hb : 0 ≤ jsLastIndexOf b c
      · rw [if_pos hb, if_pos hb,
          if_pos (show (0 : Int) ≤ (a.length : Int) + jsLastIndexOf b c by omega)]
        simp only [List.length_cons]
        push_cast
        ring
      · rw [if_neg hb, if_neg hb]

/-- The extension computed by `uploadFile` for a name whose lowercasing
ends in a dot followed by dot-free characters is exactly that tail. -/
theorem uploadExtension_of_suffix (l pre tl : List Char)
    (h : l.map jsLower = pre ++ '.' :: tl) (hdot : '.' ∉ tl) :
    uploadExtension l = '.' :: tl := by
  obtain ⟨l1, l2, hl, hpre, hsuf⟩ := map_eq_append_split jsLower l pre ('.' :: tl) h
  cases l2 with
  | nil => simp at hsuf
  | cons a l3 =>
      simp only [List.map_cons, List.cons.injEq] at hsuf
      have ha : a = '.' := jsLower_eq_dot a hsuf.1
      have hl3 : '.' ∉ l3 := by
        intro hm
        have hmm : jsLower '.' ∈ l3.map jsLower := List.mem_map_of_mem jsLower hm
        rw [hsuf.2] at hmm
        exact hdot (by simpa using hmm)
      have hinner : jsLastIndexOf (a :: l3) '.' = 0 := by
        have hr : jsLastIndexOf l3 '.' = -1 := jsLastIndexOf_not_mem l3 '.' hl3
        simp [jsLastIndexOf, hr, ha]
      have hidx : jsLastIndexOf l '.' = (l1.length : Int) := by
        rw [hl, jsLastIndexOf_append, hinner]
        simp
      have hlen : l1.length = pre.length := by
        have hml := congrArg List.length hpre
        simpa using hml
      unfold uploadExtension
      rw [hidx, h]
      unfold jsSliceFrom
      rw [if_neg (by omega : ¬ ((l1.length : Int) < 0))]
      simp only [Int.toNat_natCast, hlen]
      exact List.drop_left pre ('.' :: tl)

/-- `jsSliceFrom` always yields a suffix. -/
theorem jsSliceFrom_is_drop (s : List Char) (i : Int) :
    ∃ n, jsSliceFrom s i = s.drop n := by
  unfold jsSliceFrom
  split
  · exact ⟨(s.length + i).toNat, rfl⟩
  · exact ⟨i.toNat, rfl⟩

/-! ## Claim C10 -/

/-- C10: `uploadFile` sends the upload request exactly when the
lowercased file name ends in `.docx` or `.pdf`; otherwise it rejects
with an error before any network request.  The decision reads only the
file name: the MIME type is never consulted (the declared
`allowedTypes` list is unused), so two files with the same name and
different MIME types are treated identically. -/
theorem uploadDecidedByExtensionOnly (f : JSFile) :
    (uploadFile f = UploadOutcome.sentRequest ↔
      ((∃ pre, f.name.toList.map jsLower = pre ++ ".docx".toList) ∨
       (∃ pre, f.name.toList.map jsLower = pre ++ ".pdf".toList))) ∧
    (∀ n t1 t2, uploadFile { name := n, mimeType := t1 }
      = uploadFile { name := n, mimeType := t2 }) := by
  constructor
  · constructor
    · intro hsent
      have hmem : String.mk (uploadExtension f.name.toList) ∈ allowedExtensions := by
        by_contra hmem
        unfold uploadFile at hsent
        rw [if_neg hmem] at hsent
        exact UploadOutcome.noConfusion hsent
      have hext : uploadExtension f.name.toList = ".docx".toList ∨
          uploadExtension f.name.toList = ".pdf".toList := by
        have h2 : String.mk (uploadExtension f.name.toList) = ".docx" ∨
            String.mk (uploadExtension f.name.toList) = ".pdf" := by
          simpa [allowedExtensions] using hmem
        rcases h2 with h | h
        · exact Or.inl (congrArg String.data h)
        · exact Or.inr (congrArg String.data h)
      obtain ⟨n, hn⟩ := jsSliceFrom_is_drop (f.name.toList.map jsLower)
        (jsLastIndexOf f.name.toList '.')
      have hdrop : f.name.toList.map jsLower
          = (f.name.toList.map jsLower).take n ++ uploadExtension f.name.toList := by
        unfold uploadExtension
        rw [hn, List.take_append_drop]
      rcases hext with h | h
      · exact Or.inl ⟨(f.name.toList.map jsLower).take n, by rw [← h]; exact hdrop⟩
      · exact Or.inr ⟨(f.name.toList.map jsLower).take n, by rw [← h]; exact hdrop⟩
    · intro hsuf
      have hext : uploadExtension f.name.toList = ".docx".toList ∨
          uploadExtension f.name.toList = ".pdf".toList := by
        rcases hsuf with ⟨pre, hpre⟩ | ⟨pre, hpre⟩
        · exact Or.inl (uploadExtension_of_suffix f.name.toList pre ['d', 'o', 'c', 'x']
            hpre (by decide))
        · exact Or.inr (uploadExtension_of_suffix f.name.toList pre ['p', 'd', 'f']
            hpre (by decide))
      unfold uploadFile
      rcases hext with h | h
      · rw [h]
        rw [if_pos (by decide)]
      · rw [h]
        rw [if_pos (by decide)]
  · intro n t1 t2
    rfl

/-! ## String primitives for the save-time invariant -/

/-- A prefix is no longer than the whole. -/
theorem isPref_length : ∀ (e s : List Char), isPref e s = true → e.length ≤ s.length := by
  intro e
  induction e with
  | nil => intro s _; simp
  | cons a e ih =>
      intro s h
      cases s with
      | nil => simp [isPref] at h
      | cons b s =>
          simp only [isPref, Bool.and_eq_true] at h
          simpa using ih s h.2

/-- A prefix of an append that fits in the left part is a prefix of the
left part. -/
theorem isPref_append_short : ∀ (e a b : List Char),
    isPref e (a ++ b) = true → e.length ≤ a.length → isPref e a = true := by
  intro e
  induction e with
  | nil => intro a b _ _; rfl
  | cons x e ih =>
      intro a b h hlen
      cases a with
      | nil => simp at hlen
      | cons y a =>
          simp only [List.cons_append, isPref, Bool.and_eq_true] at h ⊢
          exact ⟨h.1, ih a b h.2 (by simpa using hlen)⟩

/-- A prefix of an append that overruns the left part contains the
character at the boundary. -/
theorem isPref_boundary : ∀ (e a : List Char) (c : Char) (t : List Char),
    isPref e (a ++ c :: t) = true → a.length < e.length → c ∈ e := by
  intro e
  induction e with
  | nil => intro a c t _ h; simp at h
  | cons x e ih =>
      intro a c t h hlen
      cases a with
      | nil =>
          simp only [List.nil_append, isPref, Bool.and_eq_true, beq_iff_eq] at h
          exact h.1 ▸ List.mem_cons_self x e
      | cons y a =>
          simp only [List.cons_append, isPref, Bool.and_eq_true] at h
          exact List.mem_cons_of_mem x (ih a c t h.2 (by simpa using hlen))

/-- A prefix occurrence is a substring occurrence. -/
theorem isSub_of_isPref (p s : List Char) (h : isPref p s = true) :
    isSub p s = true := by
  cases s with
  | nil =>
      cases p with
      | nil => rfl
      | cons a p => simp [isPref] at h
  | cons c rest => simp [isSub, h]

/-- Substring occurrences survive prepending. -/
theorem isSub_append_left (p t : List Char) (h : isSub p t = true) :
    ∀ a : List Char, isSub p (a ++ t) = true := by
  intro a
  induction a with
  | nil => simpa
  | cons c a ih => simp [isSub, ih]

/-- Matching a literal-atom pattern is exactly the prefix test. -/
theorem regexMatchHere_lit : ∀ (e s : List Char),
    regexMatchHere (e.map RAtom.lit) s = isPref e s := by
  intro e
  induction e with
  | nil => intro s; rfl
  | cons x e ih =>
      intro s
      cases s with
      | nil => rfl
      | cons c rest => simp [regexMatchHere, isPref, atomMatch, ih]

/-- A character the model treats as a regex literal is not a brace. -/
theorem regexPlain_not_brace (c : Char) (h : regexPlain c = true) :
    c ≠ '{' ∧ c ≠ '}' := by
  constructor
  · intro hc; subst hc; simp [regexPlain] at h
  · intro hc; subst hc; simp [regexPlain] at h

/-- A string of plain literal characters parses to the literal atom
pattern. -/
theorem parseRegex_lits (e : List Char) (h : ∀ c ∈ e, regexPlain c = true) :
    parseRegex e = some (e.map RAtom.lit) := by
  unfold parseRegex
  induction e with
  | nil => rfl
  | cons c rest ih =>
      have hc : regexPlain c = true := h c (List.mem_cons_self c rest)
      have hrest := ih (fun x hx => h x (List.mem_cons_of_mem c hx))
      simp only [regexPlain, List.mem_cons, Bool.not_eq_true', decide_eq_false_iff_not] at hc
      push_neg at hc
      obtain ⟨h1, h2, h3, h4, h5, h6, h7, h8, h9, h10, h11, h12, h13, h14⟩ := hc
      have hcons : parseRegexAux (c :: rest) 0 =
          (if c = '(' then parseRegexAux rest 1
           else if c = ')' then (if (0 : Nat) = 0 then none else parseRegexAux rest (0 - 1))
           else if c = '.' then (parseRegexAux rest 0).map (RAtom.dot :: ·)
           else if c ∈ ['\\', '*', '+', '?', '|', '[', ']', '^', '$'] then none
           else (parseRegexAux rest 0).map (RAtom.lit c :: ·)) := rfl
      rw [hcons, if_neg h1, if_neg h2, if_neg h3,
        if_neg (by simp [h4, h5, h6, h7, h8, h9, h10, h11, h12]), hrest]
      rfl

/-! ## Stepping lemmas for the regex replacer -/

/-- Any fuel at least the string length gives the same result. -/
theorem regexReplaceAllF_fuel (ats : List RAtom) (repl : List Char) :
    ∀ (f1 : Nat), ∀ (f2 : Nat) (s : List Char), s.length ≤ f1 → s.length ≤ f2 →
      regexReplaceAllF ats repl f1 s = regexReplaceAllF ats repl f2 s := by
  intro f1
  induction f1 with
  | zero =>
      intro f2 s h1 _
      have hs : s = [] := List.eq_nil_of_length_eq_zero (Nat.le_zero.mp h1)
      subst hs
      cases f2 <;> rfl
  | succ f1 ih =>
      intro f2 s h1 h2
      cases s with
      | nil => cases f2 <;> rfl
      | cons c rest =>
          cases f2 with
          | zero => simp at h2
          | succ f2 =>
              simp only [regexReplaceAllF]
              by_cases hm : 0 < ats.length ∧ regexMatchHere ats (c :: rest) = true
              · rw [if_pos hm, if_pos hm]
                have hd : (rest.drop (ats.length - 1)).length ≤ rest.length := by
                  simp only [List.length_drop]
                  omega
                simp only [List.length_cons] at h1 h2
                rw [ih f2 (rest.drop (ats.length - 1)) (by omega) (by omega)]
              · rw [if_neg hm, if_neg hm]
                simp only [List.length_cons] at h1 h2
                rw [ih f2 rest (by omega) (by omega)]

/-- Unfolding `regexReplaceAll` at a match site. -/
theorem regexReplaceAll_cons_match (ats : List RAtom) (repl : List Char)
    (c : Char) (rest : List Char)
    (h0 : 0 < ats.length) (h : regexMatchHere ats (c :: rest) = true) :
    regexReplaceAll ats repl (c :: rest)
      = repl ++ regexReplaceAll ats repl (rest.drop (ats.length - 1)) := by
  unfold regexReplaceAll
  simp only [List.length_cons, regexReplaceAllF, if_pos (And.intro h0 h)]
  rw [regexReplaceAllF_fuel ats repl rest.length (rest.drop (ats.length - 1)).length
    (rest.drop (ats.length - 1)) (by simp only [List.length_drop]; omega) (le_refl _)]

/-- Unfolding `regexReplaceAll` at a non-match site. -/
theorem regexReplaceAll_cons_ne (ats : List RAtom) (repl : List Char)
    (c : Char) (rest : List Char)
    (h : ¬ (0 < ats.length ∧ regexMatchHere ats (c :: rest) = true)) :
    regexReplaceAll ats repl (c :: rest) = c :: regexReplaceAll ats repl rest := by
  unfold regexReplaceAll
  simp only [List.length_cons, regexReplaceAllF, if_neg h]

/-- The replacer copies a region in which no match starts. -/
theorem regexReplaceAll_walk (ats : List RAtom) (repl : List Char) :
    ∀ (a t : List Char),
      (∀ a1 a2, a = a1 ++ a2 → a2 ≠ [] → regexMatchHere ats (a2 ++ t) = false) →
      regexReplaceAll ats repl (a ++ t) = a ++ regexReplaceAll ats repl t := by
  intro a
  induction a with
  | nil => intro t _; rfl
  | cons c a ih =>
      intro t hno
      have hm : regexMatchHere ats ((c :: a) ++ t) = false :=
        hno [] (c :: a) rfl (by simp)
      rw [List.cons_append, regexReplaceAll_cons_ne ats repl c (a ++ t)
        (by rw [show c :: (a ++ t) = (c :: a) ++ t from rfl, hm]; simp)]
      rw [ih t (fun a1 a2 hsplit hne => hno (c :: a1) a2 (by simp [hsplit]) hne)]
      rfl

/-! ## Lemmas about the chunk invariant -/

/-- Brace-free text is chunked. -/
theorem chunks_of_braceFree (keys : List (List Char)) :
    ∀ t : List Char, (∀ c ∈ t, c ≠ '{' ∧ c ≠ '}') → Chunks keys t := by
  intro t
  induction t with
  | nil => intro _; exact Chunks.nil
  | cons c rest ih =>
      intro h
      have hc := h c (List.mem_cons_self c rest)
      exact Chunks.chr hc.1 hc.2 (ih (fun x hx => h x (List.mem_cons_of_mem c hx)))

/-- Dropping a brace-free prefix of a chunked string leaves a chunked
string. -/
theorem chunks_drop_pref (keys : List (List Char)) :
    ∀ (p s : List Char), Chunks keys s → isPref p s = true →
      (∀ c ∈ p, c ≠ '{' ∧ c ≠ '}') → Chunks keys (s.drop p.length) := by
  intro p
  induction p with
  | nil => intro s hc _ _; simpa using hc
  | cons a p ih =>
      intro s hc hpref hbf
      cases s with
      | nil => simp [isPref] at hpref
      | cons b s' =>
          simp only [isPref, Bool.and_eq_true, beq_iff_eq] at hpref
          obtain ⟨hab, hpref'⟩ := hpref
          have hbfa := hbf a (List.mem_cons_self a p)
          cases hc with
          | chr hc1 hc2 hcs =>
              simpa using ih s' hcs hpref' (fun x hx => hbf x (List.mem_cons_of_mem a hx))
          | blk hk hcs =>
              exact absurd (hab ▸ rfl) hbfa.1

/-- The non-empty suffixes of a placeholder block: they start with a
brace, or consist of a tail of the key followed by the closing braces,
or are the lone final brace. -/
theorem block_split_shape (k : List Char) :
    ∀ a1 a2 : List Char,
      '{' :: '{' :: (k ++ ['}', '}']) = a1 ++ a2 → a2 ≠ [] →
      (∃ X, a2 = '{' :: X) ∨
      (∃ d, (∃ pre, k = pre ++ d) ∧ a2 = d ++ ['}', '}']) ∨
      a2 = ['}'] := by
  intro a1 a2 heq hne
  cases a1 with
  | nil => exact Or.inl ⟨'{' :: (k ++ ['}', '}']), by simpa using heq.symm⟩
  | cons x a1 =>
      simp only [List.cons_append, List.cons.injEq] at heq
      obtain ⟨hx, heq⟩ := heq
      cases a1 with
      | nil => exact Or.inl ⟨k ++ ['}', '}'], by simpa using heq.symm⟩
      | cons y a1 =>
          simp only [List.cons_append, List.cons.injEq] at heq
          obtain ⟨hy, heq⟩ := heq
          rcases List.append_eq_append_iff.mp heq.symm with ⟨d, hd1, hd2⟩ | ⟨d, hd1, hd2⟩
          · exact Or.inr (Or.inl ⟨d, ⟨a1, hd1⟩, hd2⟩)
          · rcases d with _ | ⟨z, _ | ⟨w, d2⟩⟩
            · exact Or.inr (Or.inl ⟨[], ⟨k, by simp⟩, by simpa using hd2.symm⟩)
            · simp only [List.cons_append, List.nil_append, List.cons.injEq] at hd2
              exact Or.inr (Or.inr hd2.2.symm)
            · exfalso
              simp only [List.cons_append, List.cons.injEq] at hd2
              obtain ⟨-, -, hnil⟩ := hd2
              exact hne (List.append_eq_nil.mp hnil.symm).2

/-- No match of a non-empty brace-free pattern that occurs in no key
can start inside a placeholder block. -/
theorem block_no_match_starts (e : List Char) (he : e ≠ [])
    (hbf : ∀ c ∈ e, c ≠ '{' ∧ c ≠ '}')
    (k : List Char) (hsub : isSub e k = false) (t : List Char) :
    ∀ a1 a2, '{' :: '{' :: (k ++ ['}', '}']) = a1 ++ a2 → a2 ≠ [] →
      regexMatchHere (e.map RAtom.lit) (a2 ++ t) = false := by
  intro a1 a2 heq hne
  rw [regexMatchHere_lit]
  cases hval : isPref e (a2 ++ t) with
  | false => rfl
  | true =>
      exfalso
      obtain ⟨x, e', rfl⟩ : ∃ x e', e = x :: e' := by
        cases e with
        | nil => exact absurd rfl he
        | cons x e' => exact ⟨x, e', rfl⟩
      have hx := hbf x (List.mem_cons_self x e')
      rcases block_split_shape k a1 a2 heq hne with ⟨X, hX⟩ | ⟨d, ⟨pre, hk⟩, hd⟩ | h1
      · subst hX
        simp only [List.cons_append, isPref, Bool.and_eq_true, beq_iff_eq] at hval
        exact hx.1 hval.1
      · subst hd
        rw [show (d ++ ['}', '}']) ++ t = d ++ '}' :: '}' :: t by simp] at hval
        by_cases hlen : (x :: e').length ≤ d.length
        · have hpd : isPref (x :: e') d = true :=
            isPref_append_short (x :: e') d ('}' :: '}' :: t) hval hlen
          have hsubk : isSub (x :: e') k = true := by
            rw [hk]
            exact isSub_append_left (x :: e') d (isSub_of_isPref _ _ hpd) pre
          rw [hsubk] at hsub
          cases hsub
        · have hmem : '}' ∈ x :: e' :=
            isPref_boundary (x :: e') d '}' ('}' :: t) hval (by omega)
          exact (hbf '}' hmem).2 rfl
      · subst h1
        simp only [List.cons_append, isPref, Bool.and_eq_true, beq_iff_eq] at hval
        exact hx.2 hval.1

/-- Replacing a non-empty brace-free literal pattern that occurs in no
key by a placeholder block of the key list preserves the chunk
invariant. -/
theorem regexReplaceAll_chunks (keys : List (List Char))
    (e : List Char) (he : e ≠ []) (hbf : ∀ c ∈ e, c ≠ '{' ∧ c ≠ '}')
    (hnk : ∀ k ∈ keys, isSub e k = false)
    (k0 : List Char) (hk0 : k0 ∈ keys) :
    ∀ s, Chunks keys s →
      Chunks keys (regexReplaceAll (e.map RAtom.lit) ('{' :: '{' :: (k0 ++ ['}', '}'])) s) := by
  suffices H : ∀ n s, s.length ≤ n → Chunks keys s →
      Chunks keys (regexReplaceAll (e.map RAtom.lit) ('{' :: '{' :: (k0 ++ ['}', '}'])) s) by
    exact fun s hc => H s.length s (le_refl _) hc
  intro n
  induction n with
  | zero =>
      intro s hlen hc
      have hs : s = [] := List.eq_nil_of_length_eq_zero (Nat.le_zero.mp hlen)
      subst hs
      exact Chunks.nil
  | succ n ih =>
      intro s hlen hc
      have hel : 0 < e.length := List.length_pos.mpr he
      cases hc with
      | nil => exact Chunks.nil
      | @chr c s' hc1 hc2 hcs =>
          simp only [List.length_cons] at hlen
          by_cases hm : isPref e (c :: s') = true
          · rw [regexReplaceAll_cons_match _ _ _ _
              (by simpa using List.length_pos.mpr he)
              (by rw [regexMatchHere_lit]; exact hm)]
            have hdropped : s'.drop ((e.map RAtom.lit).length - 1)
                = (c :: s').drop e.length := by
              simp only [List.length_map]
              obtain ⟨x, e', rfl⟩ : ∃ x e', e = x :: e' := by
                cases e with
                | nil => exact absurd rfl he
                | cons x e' => exact ⟨x, e', rfl⟩
              simp [List.drop_succ_cons]
            have hcd : Chunks keys ((c :: s').drop e.length) :=
              chunks_drop_pref keys e (c :: s') (Chunks.chr hc1 hc2 hcs) hm hbf
            have hlen2 : ((c :: s').drop e.length).length ≤ n := by
              simp only [List.length_drop, List.length_cons]
              omega
            have hrec := ih _ hlen2 hcd
            rw [hdropped]
            rw [show ('{' :: '{' :: (k0 ++ ['}', '}'])) ++
                regexReplaceAll (e.map RAtom.lit) ('{' :: '{' :: (k0 ++ ['}', '}']))
                  ((c :: s').drop e.length)
              = '{' :: '{' :: (k0 ++ '}' :: '}' ::
                regexReplaceAll (e.map RAtom.lit) ('{' :: '{' :: (k0 ++ ['}', '}']))
                  ((c :: s').drop e.length)) by simp]
            exact Chunks.blk hk0 hrec
          · rw [regexReplaceAll_cons_ne _ _ _ _
              (fun hand => hm (by have h2 := hand.2; rwa [regexMatchHere_lit] at h2))]
            exact Chunks.chr hc1 hc2 (ih s' (by omega) hcs)
      | @blk k s' hk hcs =>
          have hshape : '{' :: '{' :: (k ++ '}' :: '}' :: s')
              = ('{' :: '{' :: (k ++ ['}', '}'])) ++ s' := by simp
          rw [hshape, regexReplaceAll_walk _ _ _ _
            (block_no_match_starts e he hbf k (hnk k hk) s')]
          have hlens : s'.length ≤ n := by
            have := hlen
            simp only [List.length_cons, List.length_append] at this
            omega
          rw [show ('{' :: '{' :: (k ++ ['}', '}'])) ++
              regexReplaceAll (e.map RAtom.lit) ('{' :: '{' :: (k0 ++ ['}', '}'])) s'
            = '{' :: '{' :: (k ++ '}' :: '}' ::
              regexReplaceAll (e.map RAtom.lit) ('{' :: '{' :: (k0 ++ ['}', '}'])) s') by simp]
          exact Chunks.blk hk (ih s' hlens hcs)

/-- Two identifier runs terminated by a closing brace and prefix-related
are equal. -/
theorem keyrun_eq : ∀ (p k u v : List Char),
    (∀ c ∈ p, isKeyChar c = true) → (∀ c ∈ k, isKeyChar c = true) →
    isPref (p ++ '}' :: u) (k ++ '}' :: v) = true → p = k := by
  intro p
  induction p with
  | nil =>
      intro k u v _ hk hpref
      cases k with
      | nil => rfl
      | cons c k' =>
          simp only [List.nil_append, List.cons_append, isPref, Bool.and_eq_true,
            beq_iff_eq] at hpref
          have := hk c (List.mem_cons_self c k')
          rw [← hpref.1] at this
          simp [isKeyChar] at this
  | cons x p' ih =>
      intro k u v hp hk hpref
      cases k with
      | nil =>
          simp only [List.cons_append, List.nil_append, isPref, Bool.and_eq_true,
            beq_iff_eq] at hpref
          have := hp x (List.mem_cons_self x p')
          rw [hpref.1] at this
          simp [isKeyChar] at this
      | cons c k' =>
          simp only [List.cons_append, isPref, Bool.and_eq_true, beq_iff_eq] at hpref
          have htail := ih k' u v (fun a ha => hp a (List.mem_cons_of_mem x ha))
            (fun a ha => hk a (List.mem_cons_of_mem c ha)) hpref.2
          rw [hpref.1, htail]

/-- A pattern opening with a brace that occurs in a key run followed by
the closing braces actually occurs after them. -/
theorem sub_through_key (Y : List Char) : ∀ (k' s' : List Char),
    (∀ c ∈ k', isKeyChar c = true) →
    isSub ('{' :: Y) (k' ++ '}' :: '}' :: s') = true → isSub ('{' :: Y) s' = true := by
  intro k'
  induction k' with
  | nil =>
      intro s' _ hs
      simp only [List.nil_append, isSub, Bool.or_eq_true] at hs
      rcases hs with h | h | h
      · simp [isPref] at h
      · simp [isPref] at h
      · exact h
  | cons c k'' ih =>
      intro s' hkc hs
      simp only [List.cons_append, isSub, Bool.or_eq_true] at hs
      rcases hs with h | h
      · exfalso
        simp only [isPref, Bool.and_eq_true, beq_iff_eq] at h
        have := hkc c (List.mem_cons_self c k'')
        rw [← h.1] at this
        simp [isKeyChar] at this
      · exact ih s' (fun a ha => hkc a (List.mem_cons_of_mem c ha)) h

/-- In a chunked string, every placeholder key is a key of the list:
soundness of the chunk invariant. -/
theorem chunks_placeholder_mem (keys : List (List Char))
    (hkeys : ∀ k ∈ keys, k ≠ [] ∧ ∀ c ∈ k, isKeyChar c = true) :
    ∀ s, Chunks keys s → ∀ p, p ≠ [] → (∀ c ∈ p, isKeyChar c = true) →
      isSub ('{' :: '{' :: (p ++ ['}', '}'])) s = true → p ∈ keys := by
  intro s hc
  induction hc with
  | nil =>
      intro p _ _ hs
      simp [isSub] at hs
  | @chr c s' hc1 hc2 hcs ih =>
      intro p hp hpc hs
      simp only [isSub, Bool.or_eq_true] at hs
      rcases hs with h | h
      · exfalso
        simp only [isPref, Bool.and_eq_true, beq_iff_eq] at h
        exact hc1 h.1.symm
      · exact ih p hp hpc h
  | @blk k s' hk hcs ih =>
      intro p hp hpc hs
      obtain ⟨hknil, hkc⟩ := hkeys k hk
      simp only [isSub, Bool.or_eq_true] at hs
      rcases hs with h | h | h
      · -- the pattern matches at the start of the block: p = k
        simp only [isPref, Bool.and_eq_true, beq_iff_eq, true_and] at h
        exact (keyrun_eq p k ['}'] ('}' :: s') hpc hkc h) ▸ hk
      · -- the pattern would have to start at the second opening brace
        exfalso
        obtain ⟨c0, k', rfl⟩ : ∃ c0 k', k = c0 :: k' := by
          cases k with
          | nil => exact absurd rfl hknil
          | cons c0 k' => exact ⟨c0, k', rfl⟩
        rw [show ('{' : Char) :: ((c0 :: k') ++ '}' :: '}' :: s')
            = '{' :: c0 :: (k' ++ '}' :: '}' :: s') by simp] at h
        simp only [isPref, Bool.and_eq_true, beq_iff_eq] at h
        have hmem := hkc c0 (List.mem_cons_self c0 k')
        rw [← h.2.1] at hmem
        simp [isKeyChar] at hmem
      · exact ih p hp hpc (sub_through_key ('{' :: (p ++ ['}', '}'])) k s' hkc h)

/-- A non-empty string has a non-empty character list. -/
theorem toList_ne_nil_of_ne_empty (e : String) (h : e ≠ "") : e.toList ≠ [] := by
  intro hl
  apply h
  cases e with
  | mk data =>
      cases data with
      | nil => rfl
      | cons c rest => simp [String.toList] at hl

/-- The save-time fold maintains the chunk invariant over a fixed key
list that contains every variable key, provided the examples are plain
regex literals occurring in no key. -/
theorem saveFold_chunks (keys : List (List Char)) :
    ∀ (vs : List Variable) (body : List Char),
      (∀ v ∈ vs, v.key.toList ∈ keys) →
      (∀ v ∈ vs, ∀ e : String, v.«example» = some e → e ≠ "" →
        (∀ c ∈ e.toList, regexPlain c = true) ∧
        (∀ k ∈ keys, isSub e.toList k = false)) →
      Chunks keys body →
      ∃ b, vs.foldl saveStep (some body) = some b ∧ Chunks keys b := by
  intro vs
  induction vs with
  | nil => exact fun body _ _ hc => ⟨body, rfl, hc⟩
  | cons v vs ih =>
      intro body hmem hex hc
      have hvk := hmem v (List.mem_cons_self v vs)
      have hstep : ∃ body2, saveStep (some body) v = some body2 ∧ Chunks keys body2 := by
        unfold saveStep
        cases hexv : v.«example» with
        | none => exact ⟨body, rfl, hc⟩
        | some e =>
            by_cases he : e = ""
            · exact ⟨body, by simp [he], hc⟩
            · obtain ⟨hplain, hnosub⟩ :=
                hex v (List.mem_cons_self v vs) e hexv he
              have hparse : parseRegex e.toList = some (e.toList.map RAtom.lit) :=
                parseRegex_lits e.toList hplain
              have hbf : ∀ c ∈ e.toList, c ≠ '{' ∧ c ≠ '}' :=
                fun c hcmem => regexPlain_not_brace c (hplain c hcmem)
              have hnil := toList_ne_nil_of_ne_empty e he
              refine ⟨regexReplaceAll (e.toList.map RAtom.lit)
                ('{' :: '{' :: (v.key.toList ++ ['}', '}'])) body, ?_, ?_⟩
              · simp only [Option.bind, he, hparse, if_neg he]
                rfl
              · have := regexReplaceAll_chunks keys e.toList hnil hbf hnosub
                  v.key.toList hvk body hc
                simpa using this
      obtain ⟨body2, hstep2, hc2⟩ := hstep
      have hrest := ih body2 (fun w hw => hmem w (List.mem_cons_of_mem v hw))
        (fun w hw => hex w (List.mem_cons_of_mem v hw)) hc2
      simpa [List.foldl_cons, hstep2] using hrest

/-! ## Claim C4 -/

/-- C4 counterexample: the extracted text already contains the
placeholder-shaped text `\x7b\x7bghost\x7d\x7d`; saving with an empty
variable list succeeds and copies it into the body verbatim, so the
saved body has a placeholder (`ghost`) with no matching variable
definition, refuting the claim that the body produced at save time
contains no placeholder without a matching definition. -/
theorem savedBodyGhostPlaceholder :
    handleSave "T" "letter" "" [] ghostText
      = some { title := "T", docType := "letter", tags := [],
               «variables» := [], bodyMd := ghostText } ∧
    isPlaceholderKey ghostText ['g', 'h', 'o', 's', 't'] ∧
    ['g', 'h', 'o', 's', 't'] ∉ ([] : List Variable).map (fun v => v.key.toList) := by
  refine ⟨by decide, ?_, by decide⟩
  refine ⟨by decide, by decide, by decide⟩

/-- C4 (amended): the save handler performs no placeholder/definition
consistency check; what holds is that the substitutions themselves only
introduce placeholders for keys of the (possibly edited or pruned)
variable list.  When the extracted text is free of brace characters,
every key is a non-empty identifier, and every non-empty example is a
plain regex-literal string that occurs in no key, the saved body
contains only placeholders with a matching variable definition; the
counterexample shows the invariant fails when the extracted text itself
carries `\x7b\x7b...\x7d\x7d`-shaped text. -/
theorem savePlaceholdersDefined (title docType tagsStr : String)
    (vars : List Variable) (extracted : List Char)
    (hext : ∀ c ∈ extracted, c ≠ '{' ∧ c ≠ '}')
    (hkeys : ∀ v ∈ vars, v.key.toList ≠ [] ∧ ∀ c ∈ v.key.toList, isKeyChar c = true)
    (hex : ∀ v ∈ vars, ∀ e : String, v.«example» = some e → e ≠ "" →
      ∀ c ∈ e.toList, regexPlain c = true)
    (hni : ∀ v ∈ vars, ∀ e : String, v.«example» = some e → e ≠ "" →
      ∀ w ∈ vars, isSub e.toList w.key.toList = false) :
    ∃ payload, handleSave title docType tagsStr vars extracted = some payload ∧
      ∀ p, isPlaceholderKey payload.bodyMd p →
        p ∈ vars.map (fun v => v.key.toList) := by
  have hkeys2 : ∀ k ∈ vars.map (fun v => v.key.toList),
      k ≠ [] ∧ ∀ c ∈ k, isKeyChar c = true := by
    intro k hkmem
    obtain ⟨v, hv, rfl⟩ := List.mem_map.mp hkmem
    exact hkeys v hv
  obtain ⟨b, hb, hcb⟩ := saveFold_chunks (vars.map (fun v => v.key.toList))
    vars extracted
    (fun v hv => List.mem_map_of_mem _ hv)
    (fun v hv e hev hne =>
      ⟨hex v hv e hev hne,
       fun k hkmem => by
        obtain ⟨w, hw, rfl⟩ := List.mem_map.mp hkmem
        exact hni v hv e hev hne w hw⟩)
    (chunks_of_braceFree _ extracted hext)
  refine ⟨{ title := title, docType := docType,
            tags := (((splitComma tagsStr.toList).map
              (fun g => String.mk (jsTrimList g))).filter (· ≠ "")),
            «variables» := vars, bodyMd := b }, ?_, ?_⟩
  · unfold handleSave saveBodyMd
    rw [hb]
    rfl
  · intro p hpk
    obtain ⟨hp, hpc, hsub⟩ := hpk
    exact chunks_placeholder_mem (vars.map (fun v => v.key.toList)) hkeys2 b hcb
      p hp hpc hsub

/-- C4 witness for the amended statement: a brace-free policy text with
one well-behaved variable saves successfully, and the theorem yields
that all placeholders of the body are defined. -/
theorem savePlaceholdersDefinedWitness :
    ∃ payload, handleSave "Notice" "legal_notice" "insurance" [policyVar] policyText
      = some payload ∧
      ∀ p, isPlaceholderKey payload.bodyMd p →
        p ∈ [policyVar].map (fun v => v.key.toList) :=
  savePlaceholdersDefined "Notice" "legal_notice" "insurance" [policyVar] policyText
    (by decide) (by decide) (by decide) (by decide)
